import Mathlib

/-!
Verification of the course-schedule text-parsing pipeline in
src/src-tauri/src/pdf_reader.rs.

Rust strings are modelled as lists of characters (type RStr below).  Rust
indexes strings by UTF-8 byte offset and panics when a slice boundary does
not fall on a character boundary or when a slice starts after it ends; the
byte-level operations here return an Except value whose error case models
such a panic, and the panic propagates through the whole pipeline exactly
as a Rust panic would abort the call.
-/

/-- Rust string, modelled as its sequence of Unicode scalar values. -/
abbrev RStr := List Char

deriving instance DecidableEq for Except

/-- Convert a Lean string literal to the model type. -/
def rstr (s : String) : RStr := s.data

/-- Number of bytes of the UTF-8 encoding of a character
(Rust char::len_utf8). -/
def utf8Sz (c : Char) : Nat :=
  if c.toNat < 0x80 then 1
  else if c.toNat < 0x800 then 2
  else if c.toNat < 0x10000 then 3
  else 4

/-- Byte length of a string (Rust str::len). -/
def byteLen (s : RStr) : Nat := (s.map utf8Sz).sum

/-- Error value standing for a Rust string-slicing panic. -/
def sliceFault : String := "byte slice fault"

/-- Drop the first n BYTES of a string; errors (panics) when n is past the
end or does not fall on a character boundary (Rust str index by a..). -/
def dropBytes : RStr → Nat → Except String RStr
  | s, 0 => .ok s
  | [], _ + 1 => .error sliceFault
  | c :: cs, n + 1 =>
      if utf8Sz c ≤ n + 1 then dropBytes cs (n + 1 - utf8Sz c)
      else .error sliceFault

/-- Take the first n BYTES of a string; errors (panics) when n is past the
end or does not fall on a character boundary (Rust str index by ..b). -/
def takeBytes : RStr → Nat → Except String RStr
  | _, 0 => .ok []
  | [], _ + 1 => .error sliceFault
  | c :: cs, n + 1 =>
      if utf8Sz c ≤ n + 1 then
        match takeBytes cs (n + 1 - utf8Sz c) with
        | .ok t => .ok (c :: t)
        | .error e => .error e
      else .error sliceFault

/-- Byte slice s[a..b] (Rust str index by a..b): panics when a > b, when b
is past the end, or when either end is not a character boundary. -/
def byteSlice (s : RStr) (a b : Nat) : Except String RStr :=
  if a ≤ b then
    match takeBytes s b with
    | .ok t => dropBytes t a
    | .error e => .error e
  else .error sliceFault

/-- Whether pat occurs at the very start of s. -/
def isPre : RStr → RStr → Bool
  | [], _ => true
  | _ :: _, [] => false
  | a :: as, b :: bs => a = b && isPre as bs

/-- Byte offset of the first occurrence of pat in s (Rust str::find with a
string pattern).  A valid UTF-8 pattern can only match at a character
boundary, so searching character by character is exact. -/
def findSub : RStr → RStr → Option Nat
  | s, pat =>
      if isPre pat s then some 0
      else
        match s with
        | [] => none
        | c :: cs => (findSub cs pat).map (· + utf8Sz c)

/-- Byte offset of the first character satisfying p
(Rust str::find with a char-predicate pattern). -/
def findChar : RStr → (Char → Bool) → Option Nat
  | [], _ => none
  | c :: cs, p => if p c then some 0 else (findChar cs p).map (· + utf8Sz c)

/-- Rust str::contains with a string pattern. -/
def containsSub (s pat : RStr) : Bool := (findSub s pat).isSome

/-- Rust str::trim.  Rust trims every Unicode White_Space character; the
inputs of this program only ever carry ASCII whitespace, which
Char.isWhitespace covers exactly. -/
def trim (s : RStr) : RStr :=
  ((s.dropWhile Char.isWhitespace).reverse.dropWhile Char.isWhitespace).reverse

/-- Split at every newline, keeping all pieces (helper for rustLines). -/
def splitNlGo : RStr → RStr → List RStr
  | [], cur => [cur.reverse]
  | c :: cs, cur =>
      if c = '\n' then cur.reverse :: splitNlGo cs []
      else splitNlGo cs (c :: cur)

/-- Remove one trailing carriage return (helper for rustLines). -/
def stripCr (l : RStr) : RStr :=
  match l.reverse with
  | '\r' :: rest => rest.reverse
  | _ => l

/-- Drop a final empty piece (Rust split_terminator semantics). -/
def dropLastEmpty (ls : List RStr) : List RStr :=
  match ls.getLast? with
  | some [] => ls.dropLast
  | _ => ls

/-- Rust str::lines: split on newline, dropping a final line terminator,
then strip one trailing carriage return from each line. -/
def rustLines (s : RStr) : List RStr :=
  (dropLastEmpty (splitNlGo s [])).map stripCr

/-- Rust char::is_numeric (Unicode general categories Nd, Nl, No).  On the
character repertoire this program's vocabulary touches (ASCII digits and
punctuation, CJK ideographs, the marker glyphs), exactly the ASCII digits
are numeric, which Char.isDigit captures. -/
def rustIsNumeric (c : Char) : Bool := c.isDigit

/-- Numeric value of a run of ASCII digits. -/
def digitsVal (s : RStr) : Nat := s.foldl (fun a c => a * 10 + (c.toNat - 48)) 0

/-- Digit-run check and range check of u8 parsing (helper for parseU8). -/
def parseU8core (t : RStr) : Option Nat :=
  if t ≠ [] ∧ t.all Char.isDigit then
    if digitsVal t ≤ 255 then some (digitsVal t) else none
  else none

/-- Rust str::parse::<u8>: an optional leading plus sign, then at least one
ASCII digit, and the value must fit in eight bits. -/
def parseU8 (s : RStr) : Option Nat :=
  parseU8core (match s with | '+' :: r => r | _ => s)

/-- Rust pdf_reader.rs is_chinese_char: the CJK unified ideograph range
U+4E00 to U+9FFF. -/
def is_chinese_char (c : Char) : Bool :=
  decide ('一' ≤ c) && decide (c ≤ '鿿')

/-! ## Data model (pdf_reader.rs lines 4-33) -/

/-- One scheduled class occurrence (struct Course).  The u8 fields are
modelled as Nat; every value the code stores in them is at most 255. -/
structure Course where
  name : RStr
  teacher : RStr
  location : RStr
  time_slot : RStr
  weeks : RStr
  day_of_week : Nat
  start_section : Nat
  end_section : Nat
deriving DecidableEq, Repr

/-- The aggregate result (struct CourseSchedule). -/
structure CourseSchedule where
  student_name : RStr
  student_id : RStr
  semester : RStr
  courses : List Course
deriving DecidableEq, Repr

/-- CourseSchedule::new(). -/
def emptySchedule : CourseSchedule := ⟨[], [], [], []⟩

/-! ## Leaf extractors (pdf_reader.rs lines 310-358) -/

/-- extract_semester (lines 310-319): from the first numeric character
through the next occurrence of the semester-unit token, inclusive.  Both
slice offsets come from find, hence fall on character boundaries, so the
error branches of the byte operations are unreachable and are mapped to
the empty string. -/
def extract_semester (line : RStr) : RStr :=
  match findChar line rustIsNumeric with
  | none => []
  | some start =>
    match dropBytes line start with
    | .error _ => []
    | .ok rest =>
      match findSub rest (rstr "学期") with
      | none => []
      | some end_pos =>
        match takeBytes rest (end_pos + byteLen (rstr "学期")) with
        | .error _ => []
        | .ok r => r

/-- extract_student_info (lines 321-354).  The student-id branch skips
three bytes past the colon it found (the byte width of the full-width
colon); with a half-width colon this lands two bytes further on, and when
that offset falls inside a multi-byte character the slice panics, which
the error case records. -/
def extract_student_info (line : RStr) : Except String (Option (RStr × RStr)) := do
  let id ← (match findSub line (rstr "学号") with
    | none => pure ([] : RStr)
    | some id_pos => do
      let after_id ← dropBytes line id_pos
      match findChar after_id (fun c => c = '：' || c = ':') with
      | none => pure ([] : RStr)
      | some colon_pos =>
        let num_start := id_pos + colon_pos + 3
        if num_start < byteLen line then do
          let tail ← dropBytes line num_start
          pure (tail.takeWhile rustIsNumeric)
        else pure ([] : RStr))
  let name ← (match findSub line (rstr "课表") with
    | none => pure ([] : RStr)
    | some ke_pos => do
      let before_ke ← takeBytes line ke_pos
      pure ((before_ke.dropWhile (fun c => !is_chinese_char c)).takeWhile is_chinese_char))
  if name ≠ [] || id ≠ [] then pure (some (name, id)) else pure none

/-! ## Course field extraction (pdf_reader.rs lines 221-308) -/

/-- Strip both course-leading glyphs (the two replace calls on line
228-230). -/
def stripGlyphs (l : RStr) : RStr :=
  (l.filter (fun c => c ≠ '★')).filter (fun c => c ≠ '▲')

/-- The start/end-section parse inside the time-slot branch
(lines 262-272): split the raw time string at its first dash; a parseable
left part replaces start_section, and the right part truncated at its own
period-unit glyph, when parseable, replaces end_section. -/
def dashPart (c : Course) (time_str : RStr) : Except String Course := do
  match findChar time_str (fun ch => ch = '-') with
  | none => pure c
  | some dash_pos => do
    let left ← takeBytes time_str dash_pos
    let c := match parseU8 left with
      | some v => { c with start_section := v }
      | none => c
    let end_part ← dropBytes time_str (dash_pos + 1)
    match findSub end_part (rstr "节") with
    | none => pure c
    | some num_end => do
      let pre ← takeBytes end_part num_end
      pure (match parseU8 pre with
        | some v => { c with end_section := v }
        | none => c)

/-- The weeks extraction after the closing of the time segment
(lines 274-282): the text after the segment up to the first slash, or to
the end of the line, trimmed. -/
def weeksPart (c : Course) (info : RStr) (jie_end : Nat) : Except String Course := do
  if jie_end < byteLen info then do
    let after_time ← dropBytes info jie_end
    match findChar after_time (fun ch => ch = '/') with
    | some slash_pos => do
      let pre ← takeBytes after_time slash_pos
      pure { c with weeks := trim pre }
    | none => pure { c with weeks := trim after_time }
  else pure c

/-- Time-slot, section and weeks extraction from one metadata line
(lines 253-284).  The slice from one byte past the opening parenthesis to
the end of the period-unit glyph panics when the glyph-and-parenthesis
pattern occurs before the opening parenthesis (slice start after slice
end). -/
def timePart (c : Course) (info : RStr) : Except String Course := do
  match findChar info (fun ch => ch = '(') with
  | none => pure c
  | some time_start =>
    match findSub info (rstr "节)") with
    | none => pure c
    | some time_end => do
      let jie_end := time_end + byteLen (rstr "节)")
      let time_str ← byteSlice info (time_start + 1) (time_end + byteLen (rstr "节"))
      let c := { c with time_slot := time_str }
      let c ← dashPart c time_str
      weeksPart c info jie_end

/-- Teacher extraction from one metadata line (lines 286-294). -/
def teacherPart (c : Course) (info : RStr) : Except String Course := do
  match findSub info (rstr "教师:") with
  | none => pure c
  | some tp => do
    let after ← dropBytes info (tp + byteLen (rstr "教师:"))
    match findChar after (fun ch => ch = '/') with
    | some sp => do
      let pre ← takeBytes after sp
      pure { c with teacher := trim pre }
    | none => pure { c with teacher := trim after }

/-- Venue extraction from one metadata line (lines 296-304). -/
def locationPart (c : Course) (info : RStr) : Except String Course := do
  match findSub info (rstr "场地:") with
  | none => pure c
  | some lp => do
    let after ← dropBytes info (lp + byteLen (rstr "场地:"))
    match findChar after (fun ch => ch = '/') with
    | some sp => do
      let pre ← takeBytes after sp
      pure { c with location := trim pre }
    | none => pure { c with location := trim after }

/-- The body of the metadata-line loop of extract_course_from_full_text
(lines 250-305): trim the line, then the three field extractions in source
order, each assigning its field unconditionally when its pattern matches. -/
def applyInfoLine (c : Course) (line : RStr) : Except String Course := do
  let info := trim line
  let c ← timePart c info
  let c ← teacherPart c info
  locationPart c info

/-- The metadata-line loop itself (for line in lines.iter().skip(1)). -/
def applyLines (c : Course) : List RStr → Except String Course
  | [] => pure c
  | l :: ls => do applyLines (← applyInfoLine c l) ls

/-- extract_course_from_full_text (lines 221-308). -/
def extract_course_from_full_text (text : RStr) (day : Nat) (sec : Nat) :
    Except String (Option Course) := do
  let lines := rustLines text
  match lines with
  | [] => pure none
  | first :: rest =>
    let course_name := trim (stripGlyphs first)
    if course_name = [] then pure none
    else do
      let c ← applyLines ⟨course_name, [], [], [], [], day, sec, sec⟩ rest
      pure (some c)

/-! ## Section and block segmenter (pdf_reader.rs lines 128-215) -/

/-- process_section_courses (lines 205-215): run field extraction on each
collected (day, block-text) pair with the flushed ambient period and push
the courses that materialise. -/
def process_section_courses : List (Nat × RStr) → Nat → List Course →
    Except String (List Course)
  | [], _, acc => pure acc
  | (day, t) :: rest, sec, acc => do
    match (← extract_course_from_full_text t day sec) with
    | some c => process_section_courses rest sec (acc ++ [c])
    | none => process_section_courses rest sec acc

/-- The noise test of the scanning loop (lines 137-143), applied to the
trimmed line. -/
def isNoiseLine (l : RStr) : Bool :=
  containsSub l (rstr "其他课程") || containsSub l (rstr "打印时间") ||
  containsSub l (rstr "上午") || containsSub l (rstr "下午") ||
  containsSub l (rstr "晚上") || containsSub l (rstr "时间段")

/-- The period-marker shape test (line 149): byte length at most three and
every character numeric. -/
def isMarkerShape (l : RStr) : Bool :=
  decide (byteLen l ≤ 3) && l.all rustIsNumeric

/-- The course-start test (line 165): carries one of the two leading
glyphs and is not the excluded theory-hour annotation. -/
def isCourseStart (l : RStr) : Bool :=
  (containsSub l (rstr "★") || containsSub l (rstr "▲")) &&
  !containsSub l (rstr ": 理论")

/-- The block-terminator test of the inner collection loop
(lines 177-179). -/
def isBlockStop (l : RStr) : Bool :=
  containsSub l (rstr "★") || containsSub l (rstr "▲") ||
  isMarkerShape l ||
  containsSub l (rstr "上午") || containsSub l (rstr "下午") ||
  containsSub l (rstr "晚上")

/-- The ambient-period update at a period-marker line (lines 155-159):
only a parseable value in the bounded range replaces the current one. -/
def sectionUpdate (line : RStr) (sec : Nat) : Nat :=
  match parseU8 line with
  | some v => if 1 ≤ v ∧ v ≤ 12 then v else sec
  | none => sec

/-- The inner continuation-collection loop (lines 167-184): skip blank
lines, stop before a terminator, otherwise append the trimmed line.
Returns the collected lines and the unconsumed suffix (whose head, if any,
is the terminator at which the outer cursor resumes). -/
def collectBlock : List RStr → List RStr → (List RStr × List RStr)
  | [], acc => (acc, [])
  | l :: rest, acc =>
    let next := trim l
    if next = [] then collectBlock rest acc
    else if isBlockStop next then (acc, l :: rest)
    else collectBlock rest (acc ++ [next])

/-- course_lines.join("\n") (line 186). -/
def joinNl : List RStr → RStr
  | [] => []
  | [x] => x
  | x :: xs => x ++ '\n' :: joinNl xs

/-- The day-assignment push (lines 189-190): the block joins the
accumulator tagged with day (count of blocks already collected for the
current ambient period) mod 7, plus one. -/
def pushBlock (cs : List (Nat × RStr)) (t : RStr) : List (Nat × RStr) :=
  cs ++ [(cs.length % 7 + 1, t)]

/-- The outer scanning loop of parse_schedule_text (lines 133-200),
walking the suffix of the line list after the weekday header.  The loop
body only ever reads the line under the cursor, so the cursor is modelled
by the remaining suffix; fuel bounds the iteration count and the caller
supplies the suffix length, which suffices because every iteration
consumes at least one line.  Exhausted fuel or an exhausted suffix both
flush the pending blocks of the final ambient period (line 200). -/
def scanLoop : Nat → List RStr → Nat → List (Nat × RStr) → List Course →
    Except String (List Course)
  | 0, _, sec, cs, acc => process_section_courses cs sec acc
  | _ + 1, [], sec, cs, acc => process_section_courses cs sec acc
  | fuel + 1, l :: rest, sec, cs, acc =>
    let line := trim l
    if line = [] || isNoiseLine line then scanLoop fuel rest sec cs acc
    else if isMarkerShape line then do
      let acc2 ← process_section_courses cs sec acc
      scanLoop fuel rest (sectionUpdate line sec) [] acc2
    else if isCourseStart line then
      let br := collectBlock rest [line]
      scanLoop fuel br.2 sec (pushBlock cs (joinNl br.1)) acc
    else scanLoop fuel rest sec cs acc

/-! ## Metadata loop and top level (pdf_reader.rs lines 58-203) -/

/-- Whether a line qualifies for semester extraction (the condition on
line 63). -/
def semQual (l : RStr) : Bool :=
  containsSub l (rstr "学年第") && containsSub l (rstr "学期")

/-- The semester value left after scanning a list of lines starting from
init: each qualifying line replaces the running value (so the last
qualifying line wins). -/
def semFold (init : RStr) (ls : List RStr) : RStr :=
  ls.foldl (fun a l => if semQual l then extract_semester l else a) init

/-- The schedule-of branch of the metadata loop (lines 68-72): any
extracted pair replaces the student name, with the extracted name,
unconditionally. -/
def kebiaoBranch (line : RStr) (s : CourseSchedule) :
    Except String CourseSchedule := do
  match (← extract_student_info line) with
  | some (name, _) => pure { s with student_name := name }
  | none => pure s

/-- The student-id branch of the metadata loop (lines 74-90): an extracted
pair always replaces the id, and replaces the name only when the extracted
name is non-empty; then, when the running name is still empty and the
previous line carries the schedule-of token, the name is retried on the
previous line. -/
def xuehaoBranch (prev : Option RStr) (line : RStr) (s : CourseSchedule) :
    Except String CourseSchedule := do
  let s ← (do
    match (← extract_student_info line) with
    | some (name, id) =>
      let s := if name ≠ [] then { s with student_name := name } else s
      pure { s with student_id := id }
    | none => pure s)
  match prev with
  | some p =>
    if s.student_name = [] && containsSub p (rstr "课表") then do
      match (← extract_student_info p) with
      | some (name, _) => pure { s with student_name := name }
      | none => pure s
    else pure s
  | none => pure s

/-- One iteration of the metadata loop (lines 62-91): semester, then the
schedule-of branch, then the student-id branch with its previous-line
fallback.  The loop index is only ever used to read the previous line, so
prev carries it (none exactly when the index is zero). -/
def metaStep (prev : Option RStr) (line : RStr) (s : CourseSchedule) :
    Except String CourseSchedule := do
  let s := if semQual line then { s with semester := extract_semester line }
           else s
  let s ← (if containsSub line (rstr "课表") then kebiaoBranch line s else pure s)
  if containsSub line (rstr "学号：") || containsSub line (rstr "学号:") then
    xuehaoBranch prev line s
  else pure s

/-- The metadata loop (lines 62-91). -/
def metaGo : Option RStr → List RStr → CourseSchedule →
    Except String CourseSchedule
  | _, [], s => pure s
  | prev, line :: rest, s => do metaGo (some line) rest (← metaStep prev line s)

/-- The weekday-header search (lines 99-105): index of the first line that
trims to the Monday token. -/
def findMonday : List RStr → Option Nat
  | [] => none
  | l :: rest =>
    if trim l = rstr "星期一" then some 0 else (findMonday rest).map (· + 1)

/-- The ordered weekday token sequence (line 114). -/
def dayTokens : List RStr :=
  [rstr "星期一", rstr "星期二", rstr "星期三", rstr "星期四",
   rstr "星期五", rstr "星期六", rstr "星期日"]

/-- The header-validation count (lines 114-122): how many consecutive
lines from the header index match the weekday tokens in order. -/
def headerCountGo (lines : List RStr) (pos : Nat) : List RStr → Nat
  | [] => 0
  | d :: ds =>
    if pos < lines.length ∧ trim (lines.getD pos []) = d then
      1 + headerCountGo lines (pos + 1) ds
    else 0

/-- Header width starting at the found Monday line. -/
def headerCount (lines : List RStr) (start : Nat) : Nat :=
  headerCountGo lines start dayTokens

/-- parse_schedule_text (lines 58-203), acting on a fresh schedule as the
only caller does: the metadata loop, then the header search (absence of
the header or a zero header width returns the metadata-only schedule),
then the scanning loop over the suffix after the header. -/
def parse_schedule_text (text : RStr) : Except String CourseSchedule := do
  let lines := rustLines text
  let s ← metaGo none lines emptySchedule
  match findMonday lines with
  | none => pure s
  | some start_idx =>
    let day_count := headerCount lines start_idx
    if day_count = 0 then pure s
    else do
      let rest := lines.drop (start_idx + day_count)
      let courses ← scanLoop rest.length rest 0 [] []
      pure { s with courses := courses }

/-- The course list of a parse, empty when the parse panics (used to state
concrete counterexamples). -/
def coursesOf (t : RStr) : List Course :=
  match parse_schedule_text t with
  | .ok s => s.courses
  | .error _ => []


/-! ## Observation functions

Per-line field extractions, read off the corresponding branches of the
source; used to state which value a single metadata line contributes to a
field.  Their error branches correspond to panics of the mirrored branch
and yield none. -/

/-- The teacher value a single (trimmed) metadata line contributes. -/
def teacherExtract (info : RStr) : Option RStr :=
  match findSub info (rstr "教师:") with
  | none => none
  | some tp =>
    match dropBytes info (tp + byteLen (rstr "教师:")) with
    | .error _ => none
    | .ok after =>
      match findChar after (fun ch => ch = '/') with
      | some sp =>
        match takeBytes after sp with
        | .error _ => none
        | .ok pre => some (trim pre)
      | none => some (trim after)

/-- The venue value a single (trimmed) metadata line contributes. -/
def locationExtract (info : RStr) : Option RStr :=
  match findSub info (rstr "场地:") with
  | none => none
  | some lp =>
    match dropBytes info (lp + byteLen (rstr "场地:")) with
    | .error _ => none
    | .ok after =>
      match findChar after (fun ch => ch = '/') with
      | some sp =>
        match takeBytes after sp with
        | .error _ => none
        | .ok pre => some (trim pre)
      | none => some (trim after)

/-- The raw time-slot string a single (trimmed) metadata line carries: the
slice from one byte past the first opening parenthesis to the end of the
period-unit glyph of the first glyph-and-closing-parenthesis pattern. -/
def timeSlotExtract (info : RStr) : Option RStr :=
  match findChar info (fun ch => ch = '(') with
  | none => none
  | some p =>
    match findSub info (rstr "节)") with
    | none => none
    | some q =>
      match byteSlice info (p + 1) (q + byteLen (rstr "节")) with
      | .error _ => none
      | .ok ts => some ts

/-- The well-formedness carried by every emitted course: day within the
week, section fields within the u8 range. -/
def CourseOK (c : Course) : Prop :=
  (1 ≤ c.day_of_week ∧ c.day_of_week ≤ 7) ∧
  c.start_section ≤ 255 ∧ c.end_section ≤ 255

/-- The law the segmenter's per-period block accumulator obeys: the block
at position i (the (i+1)-th block collected since the last period-marker
line) carries day index i mod 7, plus one. -/
def DayLaw (cs : List (Nat × RStr)) : Prop :=
  ∀ i, i < cs.length → (cs.getD i (0, [])).1 = i % 7 + 1

/-! ## Inversion helpers -/

/-- Inversion of a successful Except bind. -/
theorem exceptBind_ok {α β : Type} {x : Except String α} {f : α → Except String β}
    {b : β} (h : x >>= f = .ok b) : ∃ a, x = .ok a ∧ f a = .ok b := by
  cases x with
  | ok a => exact ⟨a, rfl, h⟩
  | error e => simp [Bind.bind, Except.bind] at h

/-- A parsed u8 value fits in eight bits (core form). -/
theorem parseU8core_le {t : RStr} {v : Nat} (h : parseU8core t = some v) :
    v ≤ 255 := by
  unfold parseU8core at h
  split at h
  · split at h
    · injection h with h2
      omega
    · exact absurd h (by simp)
  · exact absurd h (by simp)

/-- A parsed u8 value fits in eight bits. -/
theorem parseU8_le {s : RStr} {v : Nat} (h : parseU8 s = some v) : v ≤ 255 := by
  unfold parseU8 at h
  exact parseU8core_le h

/-! ## Per-line field lemmas -/

/-- dashPart only rewrites the two section fields; it leaves them alone
when the raw time string has no dash, and any value it writes fits in
eight bits. -/
theorem dashPart_spec {c : Course} {ts : RStr} {c' : Course}
    (h : dashPart c ts = .ok c') :
    ∃ st en, c' = { c with start_section := st, end_section := en } ∧
      (findChar ts (fun ch => ch = '-') = none →
        st = c.start_section ∧ en = c.end_section) ∧
      (st = c.start_section ∨ st ≤ 255) ∧ (en = c.end_section ∨ en ≤ 255) := by
  unfold dashPart at h
  cases hd : findChar ts (fun ch => ch = '-') with
  | none =>
    simp only [hd] at h
    simp [pure, Except.pure] at h
    exact ⟨c.start_section, c.end_section, by simp [← h],
      fun _ => ⟨rfl, rfl⟩, .inl rfl, .inl rfl⟩
  | some dash_pos =>
    simp only [hd] at h
    obtain ⟨left, hL, h⟩ := exceptBind_ok h
    cases hp : parseU8 left with
    | none =>
      simp only [hp] at h
      obtain ⟨end_part, hE, h⟩ := exceptBind_ok h
      cases hj : findSub end_part (rstr "节") with
      | none =>
        simp only [hj] at h
        simp [pure, Except.pure] at h
        exact ⟨c.start_section, c.end_section, by simp [← h],
          fun hn => Option.noConfusion hn,
          .inl rfl, .inl rfl⟩
      | some num_end =>
        simp only [hj] at h
        obtain ⟨pre, hP, h⟩ := exceptBind_ok h
        cases hq : parseU8 pre with
        | none =>
          simp only [hq] at h
          simp [pure, Except.pure] at h
          exact ⟨c.start_section, c.end_section, by simp [← h],
            fun hn => Option.noConfusion hn,
            .inl rfl, .inl rfl⟩
        | some v =>
          simp only [hq] at h
          simp [pure, Except.pure] at h
          exact ⟨c.start_section, v, by simp [← h],
            fun hn => Option.noConfusion hn,
            .inl rfl, .inr (parseU8_le hq)⟩
    | some v =>
      simp only [hp] at h
      obtain ⟨end_part, hE, h⟩ := exceptBind_ok h
      cases hj : findSub end_part (rstr "节") with
      | none =>
        simp only [hj] at h
        simp [pure, Except.pure] at h
        exact ⟨v, c.end_section, by simp [← h],
          fun hn => Option.noConfusion hn,
          .inr (parseU8_le hp), .inl rfl⟩
      | some num_end =>
        simp only [hj] at h
        obtain ⟨pre, hP, h⟩ := exceptBind_ok h
        cases hq : parseU8 pre with
        | none =>
          simp only [hq] at h
          simp [pure, Except.pure] at h
          exact ⟨v, c.end_section, by simp [← h],
            fun hn => Option.noConfusion hn,
            .inr (parseU8_le hp), .inl rfl⟩
        | some w =>
          simp only [hq] at h
          simp [pure, Except.pure] at h
          exact ⟨v, w, by simp [← h],
            fun hn => Option.noConfusion hn,
            .inr (parseU8_le hp), .inr (parseU8_le hq)⟩

/-- weeksPart only rewrites the weeks field. -/
theorem weeksPart_spec {c : Course} {info : RStr} {je : Nat} {c' : Course}
    (h : weeksPart c info je = .ok c') : ∃ w, c' = { c with weeks := w } := by
  unfold weeksPart at h
  split at h
  · obtain ⟨after, hA, h⟩ := exceptBind_ok h
    cases hs : findChar after (fun ch => ch = '/') with
    | some sp =>
      simp only [hs] at h
      obtain ⟨pre, hP, h⟩ := exceptBind_ok h
      simp [pure, Except.pure] at h
      exact ⟨trim pre, h.symm⟩
    | none =>
      simp only [hs] at h
      simp [pure, Except.pure] at h
      exact ⟨trim after, h.symm⟩
  · simp [pure, Except.pure] at h
    exact ⟨c.weeks, by simp [← h]⟩

/-- teacherPart either leaves the record alone (no label) or rewrites
exactly the teacher field with the line's teacher extraction. -/
theorem teacherPart_spec {c : Course} {info : RStr} {c' : Course}
    (h : teacherPart c info = .ok c') :
    (teacherExtract info = none ∧ c' = c) ∨
    (∃ t, teacherExtract info = some t ∧ c' = { c with teacher := t }) := by
  unfold teacherPart at h
  unfold teacherExtract
  cases hf : findSub info (rstr "教师:") with
  | none =>
    simp only [hf] at h
    exact .inl ⟨rfl, by simp [pure, Except.pure] at h; exact h.symm⟩
  | some tp =>
    simp only [hf] at h
    obtain ⟨after, hA, h⟩ := exceptBind_ok h
    simp only [hA]
    cases hs : findChar after (fun ch => ch = '/') with
    | none =>
      simp only [hs] at h
      simp [pure, Except.pure] at h
      exact .inr ⟨trim after, rfl, h.symm⟩
    | some sp =>
      simp only [hs] at h
      obtain ⟨pre, hP, h⟩ := exceptBind_ok h
      simp only [hP]
      simp [pure, Except.pure] at h
      exact .inr ⟨trim pre, rfl, h.symm⟩

/-- locationPart either leaves the record alone (no label) or rewrites
exactly the location field with the line's venue extraction. -/
theorem locationPart_spec {c : Course} {info : RStr} {c' : Course}
    (h : locationPart c info = .ok c') :
    (locationExtract info = none ∧ c' = c) ∨
    (∃ t, locationExtract info = some t ∧ c' = { c with location := t }) := by
  unfold locationPart at h
  unfold locationExtract
  cases hf : findSub info (rstr "场地:") with
  | none =>
    simp only [hf] at h
    exact .inl ⟨rfl, by simp [pure, Except.pure] at h; exact h.symm⟩
  | some lp =>
    simp only [hf] at h
    obtain ⟨after, hA, h⟩ := exceptBind_ok h
    simp only [hA]
    cases hs : findChar after (fun ch => ch = '/') with
    | none =>
      simp only [hs] at h
      simp [pure, Except.pure] at h
      exact .inr ⟨trim after, rfl, h.symm⟩
    | some sp =>
      simp only [hs] at h
      obtain ⟨pre, hP, h⟩ := exceptBind_ok h
      simp only [hP]
      simp [pure, Except.pure] at h
      exact .inr ⟨trim pre, rfl, h.symm⟩

/-- timePart either leaves the record alone (no time segment) or rewrites
exactly time_slot (with the segment's raw string), weeks and the two
section fields, the latter staying at the incoming values when the raw
string has no dash and in any case staying bounded by 255. -/
theorem timePart_spec {c : Course} {info : RStr} {c' : Course}
    (h : timePart c info = .ok c') :
    (timeSlotExtract info = none ∧ c' = c) ∨
    (∃ ts st en wk, timeSlotExtract info = some ts ∧
      c' = { c with time_slot := ts, start_section := st, end_section := en,
                    weeks := wk } ∧
      (findChar ts (fun ch => ch = '-') = none →
        st = c.start_section ∧ en = c.end_section) ∧
      (st = c.start_section ∨ st ≤ 255) ∧
      (en = c.end_section ∨ en ≤ 255)) := by
  unfold timePart at h
  unfold timeSlotExtract
  cases hp : findChar info (fun ch => ch = '(') with
  | none =>
    simp only [hp] at h
    exact .inl ⟨rfl, by simp [pure, Except.pure] at h; exact h.symm⟩
  | some time_start =>
    simp only [hp] at h
    cases hq : findSub info (rstr "节)") with
    | none =>
      simp only [hq] at h
      exact .inl ⟨rfl, by simp [pure, Except.pure] at h; exact h.symm⟩
    | some time_end =>
      simp only [hq] at h
      obtain ⟨ts, hS, h⟩ := exceptBind_ok h
      simp only [hS]
      obtain ⟨c2, hD, h⟩ := exceptBind_ok h
      obtain ⟨st, en, hc2, hnd, hst, hen⟩ := dashPart_spec hD
      obtain ⟨w, hw⟩ := weeksPart_spec h
      subst hc2
      subst hw
      exact .inr ⟨ts, st, en, w, rfl, rfl, hnd, hst, hen⟩

/-- What one metadata line does to the course record: name and day are
untouched; a matching teacher, venue or time-segment pattern writes that
line's extracted value into its field, unconditionally; a time segment
with no dash leaves the section fields at their incoming values; section
values stay bounded by 255. -/
theorem applyInfoLine_spec {c : Course} {line : RStr} {c' : Course}
    (h : applyInfoLine c line = .ok c') :
    c'.name = c.name ∧ c'.day_of_week = c.day_of_week ∧
    (∀ t, teacherExtract (trim line) = some t → c'.teacher = t) ∧
    (∀ t, locationExtract (trim line) = some t → c'.location = t) ∧
    (∀ ts, timeSlotExtract (trim line) = some ts → c'.time_slot = ts) ∧
    (timeSlotExtract (trim line) = none →
      c'.start_section = c.start_section ∧ c'.end_section = c.end_section) ∧
    (∀ ts, timeSlotExtract (trim line) = some ts →
      findChar ts (fun ch => ch = '-') = none →
      c'.start_section = c.start_section ∧ c'.end_section = c.end_section) ∧
    (c.start_section ≤ 255 → c'.start_section ≤ 255) ∧
    (c.end_section ≤ 255 → c'.end_section ≤ 255) := by
  unfold applyInfoLine at h
  obtain ⟨c1, h1, h⟩ := exceptBind_ok h
  obtain ⟨c2, h2, h3⟩ := exceptBind_ok h
  have hT := timePart_spec h1
  have hE := teacherPart_spec h2
  have hL := locationPart_spec h3
  have hc2 : c2.name = c1.name ∧ c2.day_of_week = c1.day_of_week ∧
      c2.time_slot = c1.time_slot ∧ c2.start_section = c1.start_section ∧
      c2.end_section = c1.end_section ∧ c2.location = c1.location ∧
      (∀ t, teacherExtract (trim line) = some t → c2.teacher = t) := by
    rcases hE with ⟨hn, rfl⟩ | ⟨t, ht, rfl⟩
    · exact ⟨rfl, rfl, rfl, rfl, rfl, rfl,
        fun t hts => by rw [hn] at hts; exact Option.noConfusion hts⟩
    · exact ⟨rfl, rfl, rfl, rfl, rfl, rfl,
        fun t2 ht2 => by rw [ht] at ht2; exact Option.some.inj ht2⟩
  have hc3 : c'.name = c2.name ∧ c'.day_of_week = c2.day_of_week ∧
      c'.time_slot = c2.time_slot ∧ c'.start_section = c2.start_section ∧
      c'.end_section = c2.end_section ∧ c'.teacher = c2.teacher ∧
      (∀ t, locationExtract (trim line) = some t → c'.location = t) := by
    rcases hL with ⟨hn, rfl⟩ | ⟨t, ht, rfl⟩
    · exact ⟨rfl, rfl, rfl, rfl, rfl, rfl,
        fun t hts => by rw [hn] at hts; exact Option.noConfusion hts⟩
    · exact ⟨rfl, rfl, rfl, rfl, rfl, rfl,
        fun t2 ht2 => by rw [ht] at ht2; exact Option.some.inj ht2⟩
  rcases hT with ⟨hn, rfl⟩ | ⟨ts, st, en, wk, hts, rfl, hnd, hst, hen⟩
  · refine ⟨hc3.1.trans hc2.1, hc3.2.1.trans hc2.2.1,
      fun t ht => hc3.2.2.2.2.2.1.trans (hc2.2.2.2.2.2.2 t ht),
      fun t ht => hc3.2.2.2.2.2.2 t ht,
      fun t ht => by rw [hn] at ht; exact Option.noConfusion ht,
      fun _ => ⟨hc3.2.2.2.1.trans hc2.2.2.2.1, hc3.2.2.2.2.1.trans hc2.2.2.2.2.1⟩,
      fun t ht => by rw [hn] at ht; exact Option.noConfusion ht,
      ?_, ?_⟩
    · rw [hc3.2.2.2.1, hc2.2.2.2.1]; exact id
    · rw [hc3.2.2.2.2.1, hc2.2.2.2.2.1]; exact id
  · refine ⟨hc3.1.trans hc2.1, hc3.2.1.trans hc2.2.1,
      fun t ht => hc3.2.2.2.2.2.1.trans (hc2.2.2.2.2.2.2 t ht),
      fun t ht => hc3.2.2.2.2.2.2 t ht,
      fun t2 ht2 => by
        rw [hts] at ht2; injection ht2 with h4
        rw [hc3.2.2.1, hc2.2.2.1, ← h4],
      fun hnone => by rw [hts] at hnone; exact Option.noConfusion hnone,
      fun t2 ht2 hdash => by
        rw [hts] at ht2; injection ht2 with h4
        subst h4
        have := hnd hdash
        constructor
        · rw [hc3.2.2.2.1, hc2.2.2.2.1]; exact this.1
        · rw [hc3.2.2.2.2.1, hc2.2.2.2.2.1]; exact this.2,
      ?_, ?_⟩
    · rw [hc3.2.2.2.1, hc2.2.2.2.1]
      rcases hst with h5 | h5
      · rw [h5]; exact id
      · exact fun _ => h5
    · rw [hc3.2.2.2.2.1, hc2.2.2.2.2.1]
      rcases hen with h5 | h5
      · rw [h5]; exact id
      · exact fun _ => h5

/-- The metadata-line loop preserves course name and day, and keeps the
section bounds below 256. -/
theorem applyLines_inv {ls : List RStr} {c c' : Course}
    (h : applyLines c ls = .ok c') :
    c'.name = c.name ∧ c'.day_of_week = c.day_of_week ∧
    (c.start_section ≤ 255 → c'.start_section ≤ 255) ∧
    (c.end_section ≤ 255 → c'.end_section ≤ 255) := by
  induction ls generalizing c with
  | nil =>
    simp [applyLines, pure, Except.pure] at h
    subst h
    exact ⟨rfl, rfl, id, id⟩
  | cons l ls ih =>
    unfold applyLines at h
    obtain ⟨c1, h1, h⟩ := exceptBind_ok h
    obtain ⟨n1, d1, _, _, _, _, _, s1, e1⟩ := applyInfoLine_spec h1
    obtain ⟨n2, d2, s2, e2⟩ := ih h
    exact ⟨n2.trans n1, d2.trans d1, fun hx => s2 (s1 hx), fun hx => e2 (e1 hx)⟩

/-- The metadata-line loop splits over list append. -/
theorem applyLines_append (xs ys : List RStr) (c : Course) :
    applyLines c (xs ++ ys) =
      applyLines c xs >>= fun c1 => applyLines c1 ys := by
  induction xs generalizing c with
  | nil =>
    simp [applyLines, Bind.bind, Except.bind, pure, Except.pure]
  | cons x xs ih =>
    simp only [List.cons_append]
    unfold applyLines
    cases hx : applyInfoLine c x with
    | ok c1 =>
      simp only [Bind.bind, Except.bind, ih]
      cases applyLines c1 xs with
      | error e => rfl
      | ok v => cases ys <;> rfl
    | error e => simp [Bind.bind, Except.bind]

/-- A course produced by field extraction carries exactly the day passed
in, and sections bounded by 255 whenever the ambient period passed in
is. -/
theorem extract_course_inv {t : RStr} {day sec : Nat} {c : Course}
    (h : extract_course_from_full_text t day sec = .ok (some c)) :
    c.day_of_week = day ∧
    (sec ≤ 255 → c.start_section ≤ 255 ∧ c.end_section ≤ 255) := by
  unfold extract_course_from_full_text at h
  cases hl : rustLines t with
  | nil => simp [hl, pure, Except.pure] at h
  | cons first rest =>
    simp only [hl] at h
    split at h
    · simp [pure, Except.pure] at h
    · obtain ⟨c1, h1, h⟩ := exceptBind_ok h
      simp [pure, Except.pure] at h
      subst h
      obtain ⟨_, d1, s1, e1⟩ := applyLines_inv h1
      exact ⟨d1, fun hs => ⟨s1 hs, e1 hs⟩⟩

/-- Every course flushed by process_section_courses is either carried over
from the accumulator or extracted from one of the pending blocks with the
flushed ambient period. -/
theorem process_mem {cs : List (Nat × RStr)} {sec : Nat} {acc out : List Course}
    (h : process_section_courses cs sec acc = .ok out) :
    ∀ c ∈ out, c ∈ acc ∨
      ∃ p ∈ cs, extract_course_from_full_text p.2 p.1 sec = .ok (some c) := by
  induction cs generalizing acc with
  | nil =>
    simp [process_section_courses, pure, Except.pure] at h
    subst h
    exact fun c hc => .inl hc
  | cons p ps ih =>
    obtain ⟨day, t⟩ := p
    unfold process_section_courses at h
    obtain ⟨r, hr, h⟩ := exceptBind_ok h
    cases r with
    | some c0 =>
      simp only at h
      intro c hc
      rcases ih h c hc with hmem | ⟨q, hq, hx⟩
      · rcases List.mem_append.mp hmem with hmem | hmem
        · exact .inl hmem
        · simp at hmem
          subst hmem
          exact .inr ⟨(day, t), List.mem_cons_self _ _, hr⟩
      · exact .inr ⟨q, List.mem_cons_of_mem _ hq, hx⟩
    | none =>
      simp only at h
      intro c hc
      rcases ih h c hc with hmem | ⟨q, hq, hx⟩
      · exact .inl hmem
      · exact .inr ⟨q, List.mem_cons_of_mem _ hq, hx⟩

/-- Flushing preserves course well-formedness. -/
theorem process_inv {cs : List (Nat × RStr)} {sec : Nat} {acc out : List Course}
    (hsec : sec ≤ 255) (hcs : ∀ p ∈ cs, 1 ≤ p.1 ∧ p.1 ≤ 7)
    (hacc : ∀ c ∈ acc, CourseOK c)
    (h : process_section_courses cs sec acc = .ok out) :
    ∀ c ∈ out, CourseOK c := by
  intro c hc
  rcases process_mem h c hc with hmem | ⟨p, hp, hx⟩
  · exact hacc c hmem
  · obtain ⟨hd, hse⟩ := extract_course_inv hx
    exact ⟨hd ▸ hcs p hp, hse hsec⟩

/-- The ambient-period update keeps the period within the bounded range
(taking the initial zero as the lower extreme). -/
theorem sectionUpdate_le {line : RStr} {sec : Nat} (h : sec ≤ 12) :
    sectionUpdate line sec ≤ 12 := by
  unfold sectionUpdate
  cases parseU8 line with
  | none => exact h
  | some v =>
    simp only
    split
    · omega
    · exact h

/-- Pushing a block tags it with a day in the weekday range. -/
theorem pushBlock_days {cs : List (Nat × RStr)} {t : RStr}
    (hcs : ∀ p ∈ cs, 1 ≤ p.1 ∧ p.1 ≤ 7) :
    ∀ p ∈ pushBlock cs t, 1 ≤ p.1 ∧ p.1 ≤ 7 := by
  intro p hp
  rcases List.mem_append.mp hp with hmem | hmem
  · exact hcs p hmem
  · simp at hmem
    subst hmem
    have : cs.length % 7 < 7 := Nat.mod_lt _ (by omega)
    simp
    omega

/-- Every course the scanning loop emits is well-formed, given a bounded
ambient period, day-ranged pending blocks and well-formed already-emitted
courses. -/
theorem scanLoop_inv : ∀ (fuel : Nat) (rest : List RStr) (sec : Nat)
    (cs : List (Nat × RStr)) (acc : List Course) (out : List Course),
    sec ≤ 12 → (∀ p ∈ cs, 1 ≤ p.1 ∧ p.1 ≤ 7) → (∀ c ∈ acc, CourseOK c) →
    scanLoop fuel rest sec cs acc = .ok out → ∀ c ∈ out, CourseOK c := by
  intro fuel
  induction fuel with
  | zero =>
    intro rest sec cs acc out hsec hcs hacc h
    exact process_inv (by omega) hcs hacc h
  | succ fuel ih =>
    intro rest sec cs acc out hsec hcs hacc h
    cases rest with
    | nil => exact process_inv (by omega) hcs hacc h
    | cons l rest =>
      unfold scanLoop at h
      dsimp only at h
      split at h
      · exact ih rest sec cs acc out hsec hcs hacc h
      · split at h
        · obtain ⟨acc2, hA, h⟩ := exceptBind_ok h
          exact ih rest _ [] acc2 out (sectionUpdate_le hsec) (by simp)
            (process_inv (by omega) hcs hacc hA) h
        · split at h
          · exact ih _ sec _ acc out hsec (pushBlock_days hcs) hacc h
          · exact ih rest sec cs acc out hsec hcs hacc h

/-- Appending a block preserves the day law: the new block, the (N+1)-th
since the last period marker, is tagged with day N mod 7, plus one. -/
theorem pushBlock_dayLaw {cs : List (Nat × RStr)} {t : RStr} (h : DayLaw cs) :
    DayLaw (pushBlock cs t) := by
  intro i hi
  unfold pushBlock at hi ⊢
  rcases Nat.lt_or_ge i cs.length with hlt | hge
  · rw [List.getD_append _ _ _ _ hlt]
    exact h i hlt
  · have : i = cs.length := by simp at hi; omega
    subst this
    rw [List.getD_append_right _ _ _ _ hge]
    simp

/-! ## Metadata-loop lemmas -/

/-- The schedule-of branch only rewrites the student name, and rewrites it
with the extracted name (possibly empty) whenever extraction returns a
pair. -/
theorem kebiaoBranch_spec {line : RStr} {s s' : CourseSchedule}
    (h : kebiaoBranch line s = .ok s') :
    (∃ n, s' = { s with student_name := n }) ∧
    (∀ n i, extract_student_info line = .ok (some (n, i)) →
      s' = { s with student_name := n }) := by
  unfold kebiaoBranch at h
  obtain ⟨r, hr, h⟩ := exceptBind_ok h
  cases r with
  | none =>
    simp [pure, Except.pure] at h
    subst h
    refine ⟨⟨s.student_name, by simp⟩, fun n i hx => ?_⟩
    rw [hr] at hx
    simp at hx
  | some p =>
    obtain ⟨n0, i0⟩ := p
    simp [pure, Except.pure] at h
    subst h
    refine ⟨⟨n0, rfl⟩, fun n i hx => ?_⟩
    rw [hr] at hx
    simp at hx
    rw [hx.1]

/-- The student-id branch only rewrites the student name and id. -/
theorem xuehaoBranch_shape {prev : Option RStr} {line : RStr}
    {s s' : CourseSchedule} (h : xuehaoBranch prev line s = .ok s') :
    ∃ n i, s' = { s with student_name := n, student_id := i } := by
  unfold xuehaoBranch at h
  obtain ⟨s1, h1, h⟩ := exceptBind_ok h
  obtain ⟨r, hr, h1⟩ := exceptBind_ok h1
  have hs1 : ∃ n i, s1 = { s with student_name := n, student_id := i } := by
    cases r with
    | none =>
      simp [pure, Except.pure] at h1
      subst h1
      exact ⟨s.student_name, s.student_id, by simp⟩
    | some p =>
      obtain ⟨n0, i0⟩ := p
      simp only at h1
      split at h1 <;>
        · simp [pure, Except.pure] at h1
          subst h1
          exact ⟨_, _, rfl⟩
  obtain ⟨n1, i1, hs1⟩ := hs1
  cases prev with
  | none =>
    simp [pure, Except.pure] at h
    subst h
    exact ⟨n1, i1, hs1⟩
  | some p =>
    simp only at h
    split at h
    · obtain ⟨r2, hr2, h⟩ := exceptBind_ok h
      cases r2 with
      | none =>
        simp [pure, Except.pure] at h
        subst h
        exact ⟨n1, i1, hs1⟩
      | some q =>
        obtain ⟨n2, i2⟩ := q
        simp [pure, Except.pure] at h
        subst h
        subst hs1
        exact ⟨n2, i1, rfl⟩
    · simp [pure, Except.pure] at h
      subst h
      exact ⟨n1, i1, hs1⟩

/-- When the extraction of the line yields an empty name (with some id)
and the running name is non-empty, the student-id branch keeps the name
and rewrites the id: the non-empty name survives, and the previous-line
fallback stays dormant. -/
theorem xuehaoBranch_weak {prev : Option RStr} {line : RStr}
    {s s' : CourseSchedule} {n i : RStr}
    (hx : extract_student_info line = .ok (some (n, i))) (hn : n = [])
    (hname : s.student_name ≠ [])
    (h : xuehaoBranch prev line s = .ok s') :
    s' = { s with student_id := i } := by
  subst hn
  unfold xuehaoBranch at h
  obtain ⟨s1, h1, h⟩ := exceptBind_ok h
  obtain ⟨r, hr, h1⟩ := exceptBind_ok h1
  rw [hx] at hr
  have hr2 : r = some ([], i) := by
    cases hr2 : r
    · rw [hr2] at hr; simp at hr
    · rw [hr2] at hr; simp at hr; simp [hr]
  subst hr2
  simp [pure, Except.pure] at h1
  subst h1
  cases prev with
  | none =>
    simp [pure, Except.pure] at h
    subst h
    rfl
  | some p =>
    simp only at h
    rw [if_neg] at h
    · simp [pure, Except.pure] at h
      subst h
      rfl
    · simp
      intro hcontra
      exact absurd hcontra hname

/-- One metadata iteration: the semester is rewritten exactly by a
qualifying line, and the course list is never touched. -/
theorem metaStep_spec {prev : Option RStr} {line : RStr} {s s' : CourseSchedule}
    (h : metaStep prev line s = .ok s') :
    s'.semester = (if semQual line then extract_semester line else s.semester) ∧
    s'.courses = s.courses := by
  unfold metaStep at h
  dsimp only at h
  obtain ⟨s2, h2, h⟩ := exceptBind_ok h
  have hs2 : s2.semester = (if semQual line then extract_semester line else s.semester) ∧
      s2.courses = s.courses := by
    split at h2
    · obtain ⟨-, hall⟩ := kebiaoBranch_spec h2
      obtain ⟨n, hs2⟩ := (kebiaoBranch_spec h2).1
      subst hs2
      split <;> simp
    · simp [pure, Except.pure] at h2
      subst h2
      split <;> simp
  split at h
  · obtain ⟨n, i, hs'⟩ := xuehaoBranch_shape h
    subst hs'
    exact ⟨hs2.1, hs2.2⟩
  · simp [pure, Except.pure] at h
    subst h
    exact hs2

/-- A later line that is not a schedule-of line and whose extraction
yields an empty name cannot clear a non-empty student name; when the
student-id branch fires it still rewrites the id. -/
theorem metaStep_weak {prev : Option RStr} {line : RStr} {s s' : CourseSchedule}
    {n i : RStr}
    (hke : containsSub line (rstr "课表") = false)
    (hcond : (containsSub line (rstr "学号：") || containsSub line (rstr "学号:")) = true)
    (hx : extract_student_info line = .ok (some (n, i))) (hn : n = [])
    (hname : s.student_name ≠ [])
    (h : metaStep prev line s = .ok s') :
    s'.student_name = s.student_name ∧ s'.student_id = i := by
  unfold metaStep at h
  dsimp only at h
  obtain ⟨s2, h2, h⟩ := exceptBind_ok h
  rw [hke] at h2
  simp [pure, Except.pure] at h2
  rw [hcond] at h
  simp only [if_pos] at h
  have hs2name : s2.student_name = s.student_name := by
    rw [← h2]
    split <;> rfl
  have hs2 := xuehaoBranch_weak hx hn (by rw [hs2name]; exact hname) h
  subst hs2
  simp [hs2name]

/-- Across the whole metadata loop the semester is the fold of the
per-line rule (so the last qualifying line wins) and the course list is
untouched. -/
theorem metaGo_spec {ls : List RStr} {prev : Option RStr} {s s' : CourseSchedule}
    (h : metaGo prev ls s = .ok s') :
    s'.semester = semFold s.semester ls ∧ s'.courses = s.courses := by
  induction ls generalizing prev s with
  | nil =>
    simp [metaGo, pure, Except.pure] at h
    subst h
    simp [semFold]
  | cons l ls ih =>
    unfold metaGo at h
    obtain ⟨s1, h1, h⟩ := exceptBind_ok h
    obtain ⟨hsem, hcrs⟩ := metaStep_spec h1
    obtain ⟨hsem2, hcrs2⟩ := ih h
    refine ⟨?_, hcrs2.trans hcrs⟩
    rw [hsem2, hsem]
    simp [semFold]

/-- The header search fails exactly on inputs with no line trimming to the
Monday token. -/
theorem findMonday_none {ls : List RStr}
    (h : ∀ l ∈ ls, trim l ≠ rstr "星期一") : findMonday ls = none := by
  induction ls with
  | nil => rfl
  | cons l ls ih =>
    unfold findMonday
    rw [if_neg (h l (List.mem_cons_self _ _))]
    rw [ih (fun x hx => h x (List.mem_cons_of_mem _ hx))]
    rfl

/-! ## Top-level decomposition lemmas -/

/-- Every course of a successful parse is well-formed. -/
theorem parse_courses_ok {text : RStr} {s : CourseSchedule}
    (h : parse_schedule_text text = .ok s) : ∀ c ∈ s.courses, CourseOK c := by
  unfold parse_schedule_text at h
  obtain ⟨s1, h1, h⟩ := exceptBind_ok h
  have hm := metaGo_spec h1
  cases hf : findMonday (rustLines text) with
  | none =>
    simp only [hf] at h
    simp [pure, Except.pure] at h
    subst h
    rw [hm.2]
    simp [emptySchedule]
  | some start_idx =>
    simp only [hf] at h
    split at h
    · simp [pure, Except.pure] at h
      subst h
      rw [hm.2]
      simp [emptySchedule]
    · obtain ⟨out, hS, h⟩ := exceptBind_ok h
      simp [pure, Except.pure] at h
      subst h
      exact scanLoop_inv _ _ 0 [] [] out (by omega) (by simp) (by simp) hS

/-- The semester of a successful parse is the last-qualifying-line fold
over all input lines, started from the empty string. -/
theorem parse_semester {text : RStr} {s : CourseSchedule}
    (h : parse_schedule_text text = .ok s) :
    s.semester = semFold [] (rustLines text) := by
  unfold parse_schedule_text at h
  obtain ⟨s1, h1, h⟩ := exceptBind_ok h
  have hm := metaGo_spec h1
  have hs1 : s1.semester = semFold [] (rustLines text) := hm.1
  cases hf : findMonday (rustLines text) with
  | none =>
    simp only [hf] at h
    simp [pure, Except.pure] at h
    subst h
    exact hs1
  | some start_idx =>
    simp only [hf] at h
    split at h
    · simp [pure, Except.pure] at h
      subst h
      exact hs1
    · obtain ⟨out, hS, h⟩ := exceptBind_ok h
      simp [pure, Except.pure] at h
      subst h
      exact hs1

/-- With no Monday header line anywhere, a parse is exactly the outcome of
the metadata loop, with an empty course list. -/
theorem parse_noMonday {text : RStr} {s1 : CourseSchedule}
    (hm : ∀ l ∈ rustLines text, trim l ≠ rstr "星期一")
    (h1 : metaGo none (rustLines text) emptySchedule = .ok s1) :
    parse_schedule_text text = .ok s1 ∧ s1.courses = [] := by
  constructor
  · unfold parse_schedule_text
    dsimp only
    rw [h1]
    simp [Bind.bind, Except.bind, findMonday_none hm, pure, Except.pure]
  · exact (metaGo_spec h1).2

/-! ## Scanning-loop step lemmas -/

/-- A prefix is no longer, in bytes, than the whole. -/
theorem isPre_byteLen : ∀ {pat s : RStr}, isPre pat s = true →
    byteLen pat ≤ byteLen s := by
  intro pat
  induction pat with
  | nil => intro s _; simp [byteLen]
  | cons a ps ih =>
    intro s h
    cases s with
    | nil => simp [isPre] at h
    | cons b bs =>
      simp [isPre] at h
      obtain ⟨hab, hpre⟩ := h
      subst hab
      have := @ih bs hpre
      simp [byteLen] at this ⊢
      omega

/-- A substring occurrence needs at least the pattern's byte length. -/
theorem containsSub_byteLen : ∀ {s pat : RStr}, containsSub s pat = true →
    byteLen pat ≤ byteLen s := by
  intro s
  induction s with
  | nil =>
    intro pat h
    unfold containsSub findSub at h
    split at h
    · exact isPre_byteLen (by assumption)
    · simp at h
  | cons c cs ih =>
    intro pat h
    unfold containsSub findSub at h
    split at h
    · exact isPre_byteLen (by assumption)
    · simp [Option.isSome_map] at h
      have := @ih pat (by unfold containsSub; exact h)
      simp [byteLen] at this ⊢
      omega

/-- A line of period-marker shape is too short to contain any of the noise
tokens. -/
theorem markerShape_not_noise {l : RStr} (h : isMarkerShape l = true) :
    isNoiseLine l = false := by
  unfold isMarkerShape at h
  rw [Bool.and_eq_true] at h
  have hlen : byteLen l ≤ 3 := of_decide_eq_true h.1
  have hf : ∀ pat : RStr, 6 ≤ byteLen pat → containsSub l pat = false := by
    intro pat hp
    cases hc : containsSub l pat with
    | false => rfl
    | true =>
      have := containsSub_byteLen hc
      omega
  unfold isNoiseLine
  rw [hf _ (by decide), hf _ (by decide), hf _ (by decide), hf _ (by decide),
    hf _ (by decide), hf _ (by decide)]
  rfl

/-- A non-blank line of period-marker shape makes the scanning loop flush
the pending blocks, clear the accumulator and update the ambient
period. -/
theorem scanLoop_marker_step (fuel : Nat) (rest : List RStr) (sec : Nat)
    (cs : List (Nat × RStr)) (acc : List Course) (l : RStr)
    (hsh : isMarkerShape (trim l) = true) (hne : trim l ≠ []) :
    scanLoop (fuel + 1) (l :: rest) sec cs acc =
      process_section_courses cs sec acc >>= fun acc2 =>
        scanLoop fuel rest (sectionUpdate (trim l) sec) [] acc2 := by
  have hnoise := markerShape_not_noise hsh
  conv_lhs => unfold scanLoop
  dsimp only
  rw [if_neg (by simp [hne, hnoise]), if_pos hsh]

/-- A non-blank, non-noise line that is neither of period-marker shape nor
a course start is unrecognized filler: the loop advances one line leaving
the ambient period, the pending blocks and the emitted courses alone. -/
theorem scanLoop_filler_step (fuel : Nat) (rest : List RStr) (sec : Nat)
    (cs : List (Nat × RStr)) (acc : List Course) (l : RStr)
    (hne : trim l ≠ []) (hnoise : isNoiseLine (trim l) = false)
    (hmk : isMarkerShape (trim l) = false)
    (hcst : isCourseStart (trim l) = false) :
    scanLoop (fuel + 1) (l :: rest) sec cs acc =
      scanLoop fuel rest sec cs acc := by
  conv_lhs => unfold scanLoop
  dsimp only
  rw [if_neg (by simp [hne, hnoise]), if_neg (by simp [hmk]),
    if_neg (by simp [hcst])]

/-! ## Claim theorems -/

/-- C1 (code_bug): the parsing pipeline is NOT total, contradicting the
never-crash contract.  On a line with the student-id label, a half-width
colon and a following multi-byte character, the three-byte colon skip
lands inside a character and the slice panics; on a metadata line where
the period-glyph-and-parenthesis pattern occurs before the first opening
parenthesis, the time-slot slice starts after it ends and panics.  Both
panics abort the whole parse: the caller receives no schedule. -/
theorem claim_C1_panics :
    parse_schedule_text (rstr "学号:张三") = .error sliceFault ∧
    parse_schedule_text (rstr "星期一\n1\n★X\n节)(") = .error sliceFault := by
  decide

/-- C2 counterexample: a block whose parenthesized time segment carries
numbers outside 1 to 12 yields a course with start_section 20 and
end_section 21 — the claimed 1-12 invariant is false. -/
theorem claim_C2_cex :
    ¬ (∀ c ∈ coursesOf (rstr "星期一\n1\n★X\n(20-21节)"),
        (1 ≤ c.start_section ∧ c.start_section ≤ 12) ∧
        (1 ≤ c.end_section ∧ c.end_section ≤ 12)) := by
  decide

/-- C2 (amended): emitted sections are only bounded by the u8 range; the
code applies no 1-12 filter to values parsed out of a time segment (and
the ambient default is 0 before any valid period marker). -/
theorem claim_C2_amended : ∀ (text : RStr) (s : CourseSchedule),
    parse_schedule_text text = .ok s →
    ∀ c ∈ s.courses, c.start_section ≤ 255 ∧ c.end_section ≤ 255 :=
  fun _ _ h c hc => (parse_courses_ok h c hc).2

/-- C2 witness: the amended bound at the counterexample input. -/
theorem claim_C2_witness :
    (⟨rstr "X", [], [], rstr "20-21节", [], 1, 20, 21⟩ : Course).start_section ≤ 255 ∧
    (⟨rstr "X", [], [], rstr "20-21节", [], 1, 20, 21⟩ : Course).end_section ≤ 255 :=
  claim_C2_amended (rstr "星期一\n1\n★X\n(20-21节)")
    ⟨[], [], [], [⟨rstr "X", [], [], rstr "20-21节", [], 1, 20, 21⟩]⟩
    (by decide) _ (by decide)

/-- C3 counterexample: on the specified block the parsed time_slot is not
the dash form without the period-unit glyph. -/
theorem claim_C3_cex :
    extract_course_from_full_text
      (rstr "★高等数学\n(1-2节)6周,11周/教师: 张三/场地: A101") 1 1 ≠
    .ok (some ⟨rstr "高等数学", rstr "张三", rstr "A101", rstr "1-2",
      rstr "6周,11周", 1, 1, 2⟩) := by
  decide

/-- C3 (amended): field parsing of the specified block yields the claimed
name, weeks, teacher, location and section bounds, but the time_slot keeps
the period-unit glyph: the slice runs from one byte past the opening
delimiter through the END of the glyph, giving the glyph-bearing form. -/
theorem claim_C3_amended :
    extract_course_from_full_text
      (rstr "★高等数学\n(1-2节)6周,11周/教师: 张三/场地: A101") 1 1 =
    .ok (some ⟨rstr "高等数学", rstr "张三", rstr "A101", rstr "1-2节",
      rstr "6周,11周", 1, 1, 2⟩) := by
  decide

/-- C4 counterexample: two teacher lines in one block; the emitted teacher
is the SECOND line's value, so the earlier value did not survive. -/
theorem claim_C4_cex :
    extract_course_from_full_text (rstr "★X\n教师: A\n教师: B") 1 1 =
      .ok (some ⟨rstr "X", rstr "B", [], [], [], 1, 1, 1⟩) ∧
    rstr "B" ≠ rstr "A" := by
  decide

/-- C4 (amended): within one block each field extraction assigns
unconditionally on every matching line, so the LAST matching line
determines the field — whatever earlier lines set, the final line's match
wins for teacher, venue and time-slot alike. -/
theorem claim_C4_amended : ∀ (c : Course) (ls : List RStr) (l : RStr)
    (c' : Course), applyLines c (ls ++ [l]) = .ok c' →
    (∀ t, teacherExtract (trim l) = some t → c'.teacher = t) ∧
    (∀ t, locationExtract (trim l) = some t → c'.location = t) ∧
    (∀ ts, timeSlotExtract (trim l) = some ts → c'.time_slot = ts) := by
  intro c ls l c' h
  rw [applyLines_append] at h
  obtain ⟨c1, h1, h⟩ := exceptBind_ok h
  simp only [applyLines] at h
  obtain ⟨c2, h2, h⟩ := exceptBind_ok h
  simp [pure, Except.pure] at h
  subst h
  have spec := applyInfoLine_spec h2
  exact ⟨spec.2.2.1, spec.2.2.2.1, spec.2.2.2.2.1⟩

/-- C4 witness: the amended rule applied to a block state with teacher
already set to one value and a final line carrying another. -/
theorem claim_C4_witness :
    (⟨rstr "X", rstr "B", [], [], [], 1, 1, 1⟩ : Course).teacher = rstr "B" :=
  (claim_C4_amended ⟨rstr "X", rstr "A", [], [], [], 1, 1, 1⟩ [] (rstr "教师: B")
    ⟨rstr "X", rstr "B", [], [], [], 1, 1, 1⟩ (by decide)).1 (rstr "B") (by decide)

/-- C5 counterexample: with two qualifying semester lines the result holds
the SECOND line's extraction, not the first's. -/
theorem claim_C5_cex :
    parse_schedule_text (rstr "2025-2026学年第1学期\n2026-2027学年第2学期") =
      .ok ⟨[], [], rstr "2026-2027学年第2学期", []⟩ ∧
    rstr "2026-2027学年第2学期" ≠
      extract_semester (rstr "2025-2026学年第1学期") := by
  decide

/-- Scanning lines none of which qualify leaves the running semester
unchanged. -/
theorem semFold_noqual : ∀ (ls : List RStr) (init : RStr),
    (∀ l ∈ ls, semQual l = false) → semFold init ls = init := by
  intro ls
  induction ls with
  | nil => intro init _; rfl
  | cons l ls ih =>
    intro init hq
    show semFold (if semQual l then extract_semester l else init) ls = init
    rw [hq l (List.mem_cons_self _ _)]
    exact ih init (fun x hx => hq x (List.mem_cons_of_mem _ hx))

/-- C5 (amended): the semester of a successful parse is the fold of the
per-line rule over all lines — every qualifying line overwrites the
running value, so the LAST qualifying line wins; with no qualifying line
the semester stays empty. -/
theorem claim_C5_amended : ∀ (text : RStr) (s : CourseSchedule),
    parse_schedule_text text = .ok s →
    s.semester = semFold [] (rustLines text) ∧
    ((∀ l ∈ rustLines text, semQual l = false) → s.semester = []) := by
  intro text s h
  have h1 := parse_semester h
  exact ⟨h1, fun hq => h1.trans (semFold_noqual _ _ hq)⟩

/-- C5 witness: the amended rule at the two-qualifying-line input. -/
theorem claim_C5_witness :
    (⟨[], [], rstr "2026-2027学年第2学期", []⟩ : CourseSchedule).semester =
      semFold []
        (rustLines (rstr "2025-2026学年第1学期\n2026-2027学年第2学期")) :=
  (claim_C5_amended _ _ (by decide)).1

/-- C6 counterexample: a non-empty student name (first parse) is cleared
to empty by a later schedule-of line whose extraction carries an id but an
empty name (second parse, where the preceding line blocks the fallback);
and a non-empty id (third parse) is cleared to empty by a later line whose
extraction carries a name but no digits after the label (fourth parse). -/
theorem claim_C6_cex :
    parse_schedule_text (rstr "张三课表") = .ok ⟨rstr "张三", [], [], []⟩ ∧
    parse_schedule_text (rstr "张三课表\nabc\n课表 学号：123") =
      .ok ⟨[], rstr "123", [], []⟩ ∧
    parse_schedule_text (rstr "学号：111") = .ok ⟨[], rstr "111", [], []⟩ ∧
    parse_schedule_text (rstr "学号：111\n张三课表 学号：abc") =
      .ok ⟨rstr "张三", [], [], []⟩ := by
  decide

/-- C6 (amended): the no-weaker-overwrite policy holds only inside the
student-id branch's name guard: on a line that is not a schedule-of line,
an extraction with an empty name leaves a non-empty running name alone
(while still overwriting the id unconditionally).  Schedule-of lines and
the id assignment have no such guard, as the counterexample shows. -/
theorem claim_C6_amended : ∀ (prev : Option RStr) (line : RStr)
    (s s' : CourseSchedule) (n i : RStr),
    containsSub line (rstr "课表") = false →
    (containsSub line (rstr "学号：") || containsSub line (rstr "学号:")) = true →
    extract_student_info line = .ok (some (n, i)) → n = [] →
    s.student_name ≠ [] →
    metaStep prev line s = .ok s' →
    s'.student_name = s.student_name ∧ s'.student_id = i :=
  fun _ _ _ _ _ _ hke hcond hx hn hname h =>
    metaStep_weak hke hcond hx hn hname h

/-- C6 witness: the guard at a concrete step. -/
theorem claim_C6_witness :
    (⟨rstr "张", rstr "123", [], []⟩ : CourseSchedule).student_name =
      (⟨rstr "张", [], [], []⟩ : CourseSchedule).student_name ∧
    (⟨rstr "张", rstr "123", [], []⟩ : CourseSchedule).student_id = rstr "123" :=
  claim_C6_amended none (rstr "学号：123") ⟨rstr "张", [], [], []⟩
    ⟨rstr "张", rstr "123", [], []⟩ [] (rstr "123")
    (by decide) (by decide) (by decide) rfl (by decide) (by decide)

/-- C7 (confirmed): block-day assignment is periodic in collection order —
appending the (N+1)-th block since the last period marker tags it with day
N mod 7, plus one, preserving the day law of the accumulator — and every
course of a successful parse carries a day between 1 and 7. -/
theorem claim_C7 :
    (∀ (cs : List (Nat × RStr)) (t : RStr), DayLaw cs →
      DayLaw (pushBlock cs t) ∧
      pushBlock cs t = cs ++ [(cs.length % 7 + 1, t)]) ∧
    (∀ (text : RStr) (s : CourseSchedule), parse_schedule_text text = .ok s →
      ∀ c ∈ s.courses, 1 ≤ c.day_of_week ∧ c.day_of_week ≤ 7) :=
  ⟨fun _ _ h => ⟨pushBlock_dayLaw h, rfl⟩,
   fun _ _ h c hc => (parse_courses_ok h c hc).1⟩

/-- C7 witness: the day law after one push from an empty accumulator, and
the day range of a concrete emitted course. -/
theorem claim_C7_witness :
    DayLaw (pushBlock [] (rstr "x")) ∧
    (1 ≤ (⟨rstr "X", [], [], rstr "20-21节", [], 1, 20, 21⟩ : Course).day_of_week ∧
      (⟨rstr "X", [], [], rstr "20-21节", [], 1, 20, 21⟩ : Course).day_of_week ≤ 7) :=
  ⟨(claim_C7.1 [] (rstr "x") (fun i hi => absurd hi (Nat.not_lt_zero i))).1,
   claim_C7.2 (rstr "星期一\n1\n★X\n(20-21节)")
     ⟨[], [], [], [⟨rstr "X", [], [], rstr "20-21节", [], 1, 20, 21⟩]⟩
     (by decide) _ (by decide)⟩

/-- C8 (confirmed): the period-marker test is exactly byte length at most
three with every character numeric; a non-blank line passing it makes the
loop flush, clear and update the ambient period; and the line whose
trimmed form is the two digits followed by the period-unit glyph fails the
test and is treated as filler — one line consumed, nothing flushed, the
ambient period, pending blocks and emitted courses unchanged. -/
theorem claim_C8 :
    (∀ l : RStr, isMarkerShape l = true ↔
      (byteLen l ≤ 3 ∧ l.all rustIsNumeric = true)) ∧
    (∀ (fuel : Nat) (rest : List RStr) (sec : Nat) (cs : List (Nat × RStr))
      (acc : List Course) (l : RStr),
      isMarkerShape (trim l) = true → trim l ≠ [] →
      scanLoop (fuel + 1) (l :: rest) sec cs acc =
        process_section_courses cs sec acc >>= fun acc2 =>
          scanLoop fuel rest (sectionUpdate (trim l) sec) [] acc2) ∧
    (∀ (fuel : Nat) (rest : List RStr) (sec : Nat) (cs : List (Nat × RStr))
      (acc : List Course) (l : RStr),
      trim l = rstr "12节" →
      scanLoop (fuel + 1) (l :: rest) sec cs acc =
        scanLoop fuel rest sec cs acc) := by
  refine ⟨?_, scanLoop_marker_step, ?_⟩
  · intro l
    simp [isMarkerShape]
  · intro fuel rest sec cs acc l h12
    exact scanLoop_filler_step fuel rest sec cs acc l
      (by rw [h12]; decide) (by rw [h12]; decide) (by rw [h12]; decide)
      (by rw [h12]; decide)

/-- C8 witness: one marker step and one filler step at concrete states. -/
theorem claim_C8_witness :
    scanLoop 1 [rstr "12"] 0 [] [] =
      (process_section_courses [] 0 [] >>= fun acc2 =>
        scanLoop 0 [] (sectionUpdate (trim (rstr "12")) 0) [] acc2) ∧
    scanLoop 1 [rstr "12节"] 0 [] [] = scanLoop 0 [] 0 [] [] :=
  ⟨claim_C8.2.1 0 [] 0 [] [] (rstr "12") (by decide) (by decide),
   claim_C8.2.2 0 [] 0 [] [] (rstr "12节") (by decide)⟩

/-- C9 counterexample: an input with no Monday header line on which the
parse does NOT return successfully — the metadata pass panics on the
half-width-colon student-id line, so no schedule is produced. -/
theorem claim_C9_cex :
    (∀ l ∈ rustLines (rstr "学号:帅"), trim l ≠ rstr "星期一") ∧
    parse_schedule_text (rstr "学号:帅") = .error sliceFault := by
  decide

/-- C9 (amended): when no line trims to the Monday token AND the metadata
loop completes without panicking, the parse returns exactly the metadata
loop's outcome, whose course list is empty. -/
theorem claim_C9_amended : ∀ (text : RStr) (s1 : CourseSchedule),
    (∀ l ∈ rustLines text, trim l ≠ rstr "星期一") →
    metaGo none (rustLines text) emptySchedule = .ok s1 →
    parse_schedule_text text = .ok s1 ∧ s1.courses = [] :=
  fun _ _ hm h1 => parse_noMonday hm h1

/-- C9 witness: a header-free input whose metadata pass succeeds. -/
theorem claim_C9_witness :
    parse_schedule_text (rstr "都书锐课表 学号：252712004") =
      .ok ⟨rstr "都书锐", rstr "252712004", [], []⟩ ∧
    (⟨rstr "都书锐", rstr "252712004", [], []⟩ : CourseSchedule).courses = [] :=
  claim_C9_amended (rstr "都书锐课表 学号：252712004") _ (by decide) (by decide)

/-- C10 (confirmed): for a two-line block whose metadata line carries a
well-formed parenthesized time segment with no dash in the raw time
string, successful extraction sets time_slot to that raw string while both
sections keep the ambient period supplied by the segmenter. -/
theorem claim_C10 : ∀ (t : RStr) (d sec : Nat) (c : Course) (l0 l1 : RStr)
    (ts : RStr),
    rustLines t = [l0, l1] →
    timeSlotExtract (trim l1) = some ts →
    findChar ts (fun ch => ch = '-') = none →
    extract_course_from_full_text t d sec = .ok (some c) →
    c.time_slot = ts ∧ c.start_section = sec ∧ c.end_section = sec := by
  intro t d sec c l0 l1 ts hlines hts hnd h
  unfold extract_course_from_full_text at h
  rw [hlines] at h
  simp only at h
  split at h
  · simp [pure, Except.pure] at h
  · obtain ⟨c1, h1, h⟩ := exceptBind_ok h
    simp [pure, Except.pure] at h
    subst h
    simp only [applyLines] at h1
    obtain ⟨c2, h2, h1⟩ := exceptBind_ok h1
    simp [pure, Except.pure] at h1
    subst h1
    have spec := applyInfoLine_spec h2
    refine ⟨spec.2.2.2.2.1 ts hts, ?_, ?_⟩
    · exact (spec.2.2.2.2.2.2.1 ts hts hnd).1
    · exact (spec.2.2.2.2.2.2.1 ts hts hnd).2

/-- C10 witness: the no-dash segment at a concrete block. -/
theorem claim_C10_witness :
    (⟨rstr "X", [], [], rstr "3节", [], 2, 5, 5⟩ : Course).time_slot = rstr "3节" ∧
    (⟨rstr "X", [], [], rstr "3节", [], 2, 5, 5⟩ : Course).start_section = 5 ∧
    (⟨rstr "X", [], [], rstr "3节", [], 2, 5, 5⟩ : Course).end_section = 5 :=
  claim_C10 (rstr "★X\n(3节)") 2 5 ⟨rstr "X", [], [], rstr "3节", [], 2, 5, 5⟩
    (rstr "★X") (rstr "(3节)") (rstr "3节")
    (by decide) (by decide) (by decide) (by decide)
